import Mathlib

/-!
Verification of the static style-rule engine in
`Static Code Analyzer/task/analyzer/code_analyzer.py`.

The Python source is shallowly embedded: raw lines are lists of
characters, the checks are executable Lean functions mirroring the
Python functions of the same name, the syntax tree is an inductive type
carrying exactly the structure the tree rules inspect, and the external
parser (consumed as a capability, not reimplemented, per the spec) is
modelled by an `Except` value supplied as input.  Machine integers do
not occur (Python integers are unbounded; all quantities here are
naturals).  Python string comparison is comparison of code-point
sequences, modelled by a lexicographic comparison on `List Char`.
-/

/-! ## Character classes (ASCII, as used by the Python source) -/

/-- Characters that Python `str.strip`/`str.rstrip`/`str.lstrip` remove and
that the regex class `\s` matches, restricted to ASCII (the source only
meets ASCII whitespace). -/
def pyIsSpace (c : Char) : Bool :=
  c == ' ' || c == '\t' || c == '\n' || c == '\x0d' || c == '\x0b' || c == '\x0c'

/-- Characters matched by the regex class `[a-z0-9]` (by code point). -/
def isLowerDigit (c : Char) : Bool :=
  (97 ≤ c.toNat && c.toNat ≤ 122) || (48 ≤ c.toNat && c.toNat ≤ 57)

/-- Characters matched by the regex class `[A-Z]` (by code point). -/
def isUpperAlpha (c : Char) : Bool :=
  65 ≤ c.toNat && c.toNat ≤ 90

/-- Characters matched by the regex class `\w` (ASCII): letters, digits
and underscore. -/
def pyIsWordChar (c : Char) : Bool :=
  isLowerDigit c || isUpperAlpha c || c == '_'

/-- Python `str.lower` on a single ASCII character. -/
def pyToLower (c : Char) : Char :=
  if 65 ≤ c.toNat && c.toNat ≤ 90 then Char.ofNat (c.toNat + 32) else c

/-! ## Python string primitives over `List Char` -/

/-- Python `str.rstrip()`: remove trailing whitespace. -/
def pyRstrip (l : List Char) : List Char :=
  (l.reverse.dropWhile pyIsSpace).reverse

/-- Python `str.lstrip()`: remove leading whitespace. -/
def pyLstrip (l : List Char) : List Char :=
  l.dropWhile pyIsSpace

/-- Python `line.strip() == ''`: the line is blank (only whitespace). -/
def lineIsBlank (l : List Char) : Bool :=
  l.all pyIsSpace

/-- Python `str.split(sep)` for a one-character separator: all split
fields, including empty ones; `''.split(sep)` is `['']`. -/
def pySplitChar (sep : Char) : List Char → List (List Char)
  | [] => [[]]
  | c :: rest =>
    if c == sep then [] :: pySplitChar sep rest
    else
      match pySplitChar sep rest with
      | [] => [[c]]
      | p :: ps => (c :: p) :: ps

/-- Boolean substring test: `needle` occurs contiguously in `hay`
(Python `in` on strings). -/
def containsSub (needle : List Char) : List Char → Bool
  | [] => needle.isPrefixOf []
  | c :: rest => needle.isPrefixOf (c :: rest) || containsSub needle rest

/-! ## Line rules (code_analyzer.py lines 7-45) -/

/-- Embeds `is_line_too_long` (line 7): S001 condition. -/
def is_line_too_long (line : List Char) : Bool :=
  (pyRstrip line).length > 79

/-- Embeds `is_indentation_not_multiple_of_four` (line 11): the leading
count is `len(line) - len(line.lstrip(' '))`, i.e. the number of leading
space characters. -/
def is_indentation_not_multiple_of_four (line : List Char) : Bool :=
  let leadingSpaces := (line.takeWhile (fun c => c == ' ')).length
  leadingSpaces % 4 != 0 && leadingSpaces != 0

/-- Python `line.split('#', 1)[0]`: the text before the first `#`
(the whole line when there is no `#`). -/
def beforeFirstHash (line : List Char) : List Char :=
  line.takeWhile (fun c => c != '#')

/-- Embeds `has_unnecessary_semicolon` (line 16). -/
def has_unnecessary_semicolon (line : List Char) : Bool :=
  let cleanLine := pyRstrip (beforeFirstHash line)
  cleanLine.getLast? == some ';' && cleanLine != [';']

/-- Embeds `has_less_than_two_spaces_before_inline_comment` (line 21). -/
def has_less_than_two_spaces_before_inline_comment (line : List Char) : Bool :=
  if line.contains '#' then
    let p0 := beforeFirstHash line
    p0.length != 0 && !([' ', ' '].isSuffixOf p0) && !(['\t'].isSuffixOf p0)
  else false

/-- Embeds `has_todo_comment` (line 30): `line.split('#')` and, when the
split has a second field, test `'todo' in parts[1].lower()`.  Note the
split is unbounded, so the inspected field ends at the second `#`. -/
def has_todo_comment (line : List Char) : Bool :=
  match (pySplitChar '#' line).get? 1 with
  | some comment => containsSub ['t', 'o', 'd', 'o'] (comment.map pyToLower)
  | none => false

/-- The regex `\b<kw>\s{2,}` anchored at the start of `l` for a keyword
beginning with a word character: `l` starts with the keyword followed by
at least two whitespace characters. -/
def keywordTwoSpaces (kw : List Char) (l : List Char) : Bool :=
  kw.isPrefixOf l &&
    (match l.drop kw.length with
     | c1 :: c2 :: _ => pyIsSpace c1 && pyIsSpace c2
     | _ => false)

/-- Embeds `check_too_many_spaces_after_construction_name` (line 38):
`re.match(r"\bclass\s{2,}", line)` and `re.match(r"\bdef\s{2,}",
line.lstrip())`, with the class test taking priority. -/
def check_too_many_spaces_after_construction_name (line : List Char) :
    Bool × Option String :=
  let matchClass := keywordTwoSpaces ['c', 'l', 'a', 's', 's'] line
  let matchDef := keywordTwoSpaces ['d', 'e', 'f'] (pyLstrip line)
  if matchClass then (true, some "class")
  else if matchDef then (true, some "def")
  else (false, none)

/-! ## Naming classifiers (code_analyzer.py lines 48-53)

`re.match(p, s)` anchors at the start of `s`; a final `$` in `p` also
matches just before a trailing newline, which the wrappers below model
explicitly.  The pattern cores are deterministic, so they are embedded
as small state machines (no backtracking can change the outcome, since
the character classes at each decision point are disjoint). -/

/-- State machine for the snake-case core after at least one `[a-z0-9]`
character has been read.  The flag records whether the previously read
character was an underscore (in which state a second underscore, i.e. a
double underscore, rejects). -/
def snakeGo : Bool → List Char → Bool
  | _, [] => true
  | afterUnd, c :: rest =>
    if isLowerDigit c then snakeGo false rest
    else if c == '_' then !afterUnd && snakeGo true rest
    else false

/-- Snake-case core at the point where the regex requires
`[a-z0-9]+(_[a-z0-9]+)*_?$`: at least one `[a-z0-9]` must follow. -/
def snakeStartSeg : List Char → Bool
  | [] => false
  | c :: rest => isLowerDigit c && snakeGo false rest

/-- Full match of `^_?[a-z0-9]+(_[a-z0-9]+)*_?$` against the whole
string (without the trailing-newline allowance of `$`). -/
def snakeFullMatch : List Char → Bool
  | [] => false
  | c :: rest => if c == '_' then snakeStartSeg rest else snakeStartSeg (c :: rest)

/-- Embeds `is_snake_case` (line 52):
`re.match(r'^_?[a-z0-9]+(_[a-z0-9]+)*_?$', name) is not None`. -/
def is_snake_case (name : List Char) : Bool :=
  snakeFullMatch name ||
    (name.getLast? == some '\n' && snakeFullMatch name.dropLast)

/-- State machine for the camel-case core `([a-z0-9]+[A-Z]?)*$` after the
initial `[A-Z]`.  The flag records whether we are inside a `[a-z0-9]+`
group (in which state one capping `[A-Z]` may follow). -/
def camelGo : Bool → List Char → Bool
  | _, [] => true
  | inGroup, c :: rest =>
    if isLowerDigit c then camelGo true rest
    else if inGroup && isUpperAlpha c then camelGo false rest
    else false

/-- Full match of `^[A-Z]([a-z0-9]+[A-Z]?)*$` against the whole string
(without the trailing-newline allowance of `$`). -/
def camelFullMatch : List Char → Bool
  | [] => false
  | c :: rest => isUpperAlpha c && camelGo false rest

/-- Embeds `is_camel_case` (line 48):
`re.match(r'^[A-Z]([a-z0-9]+[A-Z]?)*$', name) is not None`. -/
def is_camel_case (name : List Char) : Bool :=
  camelFullMatch name ||
    (name.getLast? == some '\n' && camelFullMatch name.dropLast)

/-- The match `re.match(r"class\s+(\w+)", line)` (code_analyzer.py line
167): `class` at position 0, then at least one whitespace character,
then the captured group of at least one word character. -/
def matchClassDeclName (line : List Char) : Option (List Char) :=
  if ['c', 'l', 'a', 's', 's'].isPrefixOf line then
    let rest := line.drop 5
    let spaces := rest.takeWhile pyIsSpace
    let word := (rest.dropWhile pyIsSpace).takeWhile pyIsWordChar
    if spaces != [] && word != [] then some word else none
  else none

/-! ## Blank-run rule (code_analyzer.py lines 56-66) -/

/-- Loop body of `has_more_than_two_blank_lines`: `i` is the 0-based
index of the current line and `cnt` the running count of consecutive
blank lines seen immediately before it.  On a non-blank line with
`cnt > 2` the source appends `i - blank_line_count + blank_line_count + 1`;
Python integers are unbounded, and on every reachable state `cnt ≤ i`,
where the natural-number expression agrees with the integer one. -/
def blankRunGo : List (List Char) → Nat → Nat → List Nat
  | [], _, _ => []
  | line :: rest, i, cnt =>
    if lineIsBlank line then blankRunGo rest (i + 1) (cnt + 1)
    else (if cnt > 2 then [i - cnt + cnt + 1] else []) ++ blankRunGo rest (i + 1) 0

/-- Embeds `has_more_than_two_blank_lines` (line 56). -/
def has_more_than_two_blank_lines (lines : List (List Char)) : List Nat :=
  blankRunGo lines 0 0

/-! ## Issues -/

/-- One reported violation, mirroring the Python tuple
`(line_number, message, file_path)`. -/
structure Issue where
  line : Nat
  message : String
  source : String
deriving DecidableEq, Repr

/-! ## Syntax-tree model (for the tree rules, code_analyzer.py 69-130)

The tree carries exactly the structure the tree rules inspect.  `PyExpr`
classifies expressions by the constructor tests the source performs
(`ast.List`/`ast.Dict`/`ast.Set` for defaults, `ast.Name` for assignment
targets); all other expression forms are `otherE`.  `PyStmt.block`
stands for any compound statement (if/while/for/with/...) whose nested
statements `ast.walk` descends into; `PyStmt.terminal` for statements
without nested statements. -/

structure PyArg where
  arg : String
  lineno : Nat

inductive PyExpr where
  | listLit
  | dictLit
  | setLit
  | call
  | nameE (id : String)
  | otherE

/-- The `ast.arguments` object of a function definition, with every
field that can bind a parameter name or a default value.  As in Python,
`defaults` holds the defaults of the trailing positional parameters
(covering `posonlyargs ++ args`), while `kw_defaults` holds one entry
per keyword-only parameter, `none` where that parameter has no default.
The `vararg`/`kwarg` slots can bind no default and are omitted.  The
source reads only `args` and `defaults`. -/
structure PyArguments where
  posonlyargs : List PyArg
  args : List PyArg
  kwonlyargs : List PyArg
  kw_defaults : List (Option PyExpr)
  defaults : List PyExpr

inductive PyStmt where
  | functionDef (name : String) (lineno : Nat) (args : PyArguments)
      (body : List PyStmt)
  | assign (lineno : Nat) (targets : List PyExpr)
  | block (body : List PyStmt)
  | terminal

/-- A parsed module is its list of top-level statements. -/
def PyModule := List PyStmt

mutual
/-- Model of `ast.walk` from one statement: the node itself and all the
statements nested below it.  The Python documentation leaves the order
of `ast.walk` unspecified; the model uses preorder, which is harmless
because every property proved below is order-insensitive. -/
def walkStmt : PyStmt → List PyStmt
  | .functionDef n l a body => .functionDef n l a body :: walkStmts body
  | .assign l t => [.assign l t]
  | .block body => .block body :: walkStmts body
  | .terminal => [.terminal]

/-- Model of `ast.walk` over a list of sibling statements. -/
def walkStmts : List PyStmt → List PyStmt
  | [] => []
  | s :: rest => walkStmt s ++ walkStmts rest
end

/-! ## Tree rules -/

/-- Message of rule S009 for a function name. -/
def s009Message (name : String) : String :=
  "S009 Function name \x27" ++ name ++ "\x27 should use snake_case"

/-- Message of rule S010 for an argument name. -/
def s010Message (name : String) : String :=
  "S010 Argument name \x27" ++ name ++ "\x27 should be snake_case"

/-- Message of rule S011 for a variable name. -/
def s011Message (name : String) : String :=
  "S011 Variable \x27" ++ name ++ "\x27 in function should be snake_case"

/-- Message of rule S012. -/
def s012Message : String := "S012 Default argument value is mutable"

/-- The dunder test of line 80: `node.name.startswith('__') and
node.name.endswith('__')`. -/
def isDunderName (name : String) : Bool :=
  ['_', '_'].isPrefixOf name.data && ['_', '_'].isSuffixOf name.data

/-- Embeds the loop of `check_function_args` (line 93): one issue, at the
argument's line, per positional argument whose name is not snake_case. -/
def check_function_args (fp : String) : List PyArg → List Issue
  | [] => []
  | a :: rest =>
    (if is_snake_case a.arg.data then []
     else [⟨a.lineno, s010Message a.arg, fp⟩]) ++ check_function_args fp rest

/-- Inner loop of `check_function_body_for_variables` (line 109): for
each target of one `Assign`, an issue at the assignment's line when the
target is an `ast.Name` whose id is not snake_case. -/
def s011TargetIssues (lineno : Nat) (fp : String) : List PyExpr → List Issue
  | [] => []
  | .nameE id :: rest =>
    (if is_snake_case id.data then []
     else [⟨lineno, s011Message id, fp⟩]) ++ s011TargetIssues lineno fp rest
  | _ :: rest => s011TargetIssues lineno fp rest

/-- Outer loop of `check_function_body_for_variables` (line 107) over an
already-walked node list: only `Assign` nodes contribute. -/
def assignIssuesOver (fp : String) : List PyStmt → List Issue
  | [] => []
  | .assign l ts :: rest => s011TargetIssues l fp ts ++ assignIssuesOver fp rest
  | _ :: rest => assignIssuesOver fp rest

/-- Embeds `check_function_body_for_variables` (line 105): walk the
function node itself and everything below it. -/
def check_function_body_for_variables (fp : String) (node : PyStmt) : List Issue :=
  assignIssuesOver fp (walkStmt node)

/-- The test `isinstance(default, (ast.List, ast.Dict, ast.Set))` of
line 124. -/
def isinstanceListDictSet : PyExpr → Bool
  | .listLit => true
  | .dictLit => true
  | .setLit => true
  | _ => false

/-- Embeds the loop of `check_mutable_default_arguments` (line 121): one
issue, at the function's line, per default that is a list, dict or set
literal. -/
def check_mutable_default_arguments (fp : String) (lineno : Nat) :
    List PyExpr → List Issue
  | [] => []
  | d :: rest =>
    (if isinstanceListDictSet d then [⟨lineno, s012Message, fp⟩] else []) ++
      check_mutable_default_arguments fp lineno rest

/-- Body of the `check_function_defs` loop (line 77) for one walked
node: only `FunctionDef` nodes contribute, with the S009 dunder
exemption and the three sub-checks. -/
def functionDefIssues (fp : String) : PyStmt → List Issue
  | .functionDef name lineno args body =>
    (if isDunderName name then []
     else if is_snake_case name.data then []
     else [⟨lineno, s009Message name, fp⟩]) ++
    check_function_args fp args.args ++
    check_function_body_for_variables fp (.functionDef name lineno args body) ++
    check_mutable_default_arguments fp lineno args.defaults
  | _ => []

/-- The `check_function_defs` loop over an already-walked node list. -/
def checkDefsOver (fp : String) : List PyStmt → List Issue
  | [] => []
  | s :: rest => functionDefIssues fp s ++ checkDefsOver fp rest

/-- Embeds `check_function_defs` (line 75): walk the whole parsed tree
and check every function definition found anywhere in it. -/
def check_function_defs (fp : String) (tree : PyModule) : List Issue :=
  checkDefsOver fp (walkStmts tree)

/-- Embeds `analyze_code_with_ast` (line 69).  `ast.parse` is an
external capability; its outcome is the supplied `Except` value, and a
parse failure propagates exactly as a Python exception would. -/
def analyze_code_with_ast (parsed : Except String PyModule) (fp : String) :
    Except String (List Issue) :=
  match parsed with
  | .ok tree => .ok (check_function_defs fp tree)
  | .error e => .error e

/-! ## File analyzer (code_analyzer.py lines 133-184) -/

/-- The S008 portion of the per-line loop (lines 167-175): when
`re.match(r"class\s+(\w+)", line)` succeeds and the captured name is not
CamelCase, one issue fires. -/
def s008LineIssues (fp : String) (lineNumber : Nat) (line : List Char) : List Issue :=
  match matchClassDeclName line with
  | some className =>
    if is_camel_case className then []
    else
      [⟨lineNumber,
        "S008 Class name \x27" ++ String.mk className ++ "\x27 should use CamelCase",
        fp⟩]
  | none => []

/-- The issues the per-line body of the `analyze_file` loop (lines
139-175) appends for one line, in source order S001 ... S008. -/
def analyzeLine (fp : String) (lineNumber : Nat) (line : List Char) : List Issue :=
  (if is_line_too_long line then [⟨lineNumber, "S001 Too long", fp⟩] else []) ++
  (if is_indentation_not_multiple_of_four line then
    [⟨lineNumber, "S002 Indentation is not a multiple of four", fp⟩] else []) ++
  (if has_unnecessary_semicolon line then
    [⟨lineNumber, "S003 Unnecessary semicolon", fp⟩] else []) ++
  (if has_less_than_two_spaces_before_inline_comment line then
    [⟨lineNumber, "S004 At least two spaces required before inline comments", fp⟩] else []) ++
  (if has_todo_comment line then [⟨lineNumber, "S005 TODO found", fp⟩] else []) ++
  (match check_too_many_spaces_after_construction_name line with
   | (true, some kw) =>
     [⟨lineNumber, "S007 Too many spaces after \x27" ++ kw ++ "\x27", fp⟩]
   | _ => []) ++
  s008LineIssues fp lineNumber line

/-- The `enumerate(lines, start=1)` loop of `analyze_file`. -/
def lineIssues (fp : String) : Nat → List (List Char) → List Issue
  | _, [] => []
  | n, line :: rest => analyzeLine fp n line ++ lineIssues fp (n + 1) rest

/-- Embeds `analyze_file` (line 133) after the file read: the line-rule
loop, then the blank-run issues, then the tree analysis.  A parse
failure inside `analyze_code_with_ast` propagates out of `analyze_file`
before `return issues` is reached, so the collected line-level issues
are discarded in that case, exactly as in the Python source. -/
def analyze_file (fp : String) (lines : List (List Char))
    (parsed : Except String PyModule) : Except String (List Issue) :=
  let issues :=
    lineIssues fp 1 lines ++
      (has_more_than_two_blank_lines lines).map
        (fun n => ⟨n, "S006 More than two blank lines used", fp⟩)
  match analyze_code_with_ast parsed fp with
  | .ok astIssues => .ok (issues ++ astIssues)
  | .error e => .error e

/-! ## Report builder (code_analyzer.py lines 205-210) -/

/-- Python lexicographic string comparison, i.e. strict lexicographic
order on code-point sequences. -/
def strLtb : List Char → List Char → Bool
  | [], [] => false
  | [], _ :: _ => true
  | _ :: _, [] => false
  | a :: as, b :: bs =>
    if a < b then true else if b < a then false else strLtb as bs

/-- Strict comparison of two issues by the Python sort key
`(x[2], x[0], x[1])`, i.e. (file identifier, line number, message). -/
def issueLtb (a b : Issue) : Bool :=
  strLtb a.source.data b.source.data ||
    (a.source == b.source &&
      (a.line < b.line ||
        (a.line == b.line && strLtb a.message.data b.message.data)))

/-- Reflexive comparison used for sorting: the negation of the converse
strict comparison, so equal keys compare as less-or-equal. -/
def issueLeb (a b : Issue) : Bool := !issueLtb b a

/-- The composite-key order on issues, as a relation. -/
def issueLe (a b : Issue) : Prop := issueLeb a b = true

instance : DecidableRel issueLe :=
  fun a b => instDecidableEqBool (issueLeb a b) true

/-- The sort performed by `print_issues` (line 207):
`sorted(issues, key=lambda x: (x[2], x[0], x[1]))`. -/
def sortIssues (issues : List Issue) : List Issue :=
  List.insertionSort issueLe issues

/-- Rendering of one sorted issue (line 210):
`f"{relative_path}: Line {line_number}: {message}"`.  The
`os.path.relpath` call depends on the working directory, which is
outside the engine per the spec; it enters as the `relpath` input. -/
def renderIssue (relpath : String → String) (i : Issue) : String :=
  relpath i.source ++ ": Line " ++ toString i.line ++ ": " ++ i.message

/-- Embeds `print_issues` (line 205) as the list of lines it prints. -/
def print_issues (relpath : String → String) (issues : List Issue) : List String :=
  (sortIssues issues).map (renderIssue relpath)

/-! ## Whole-engine run (for the determinism claim) -/

/-- One input file: its path, its physical lines, and the outcome of the
external parser on its text. -/
structure FileInput where
  path : String
  lines : List (List Char)
  parsed : Except String PyModule

/-- Collect issues over all input files; the first parse failure aborts
the collection, as an uncaught exception aborts the Python run. -/
def gatherIssues : List FileInput → Except String (List Issue)
  | [] => .ok []
  | f :: rest =>
    match analyze_file f.path f.lines f.parsed with
    | .ok issues =>
      match gatherIssues rest with
      | .ok more => .ok (issues ++ more)
      | .error e => .error e
    | .error e => .error e

/-- A full engine run: analyze every file, then build the report. -/
def runEngine (relpath : String → String) (input : List FileInput) :
    Except String (List String) :=
  match gatherIssues input with
  | .ok issues => .ok (print_issues relpath issues)
  | .error e => .error e

/-- A run of the engine relates an input to the report it produces. -/
def EngineRun (relpath : String → String) (input : List FileInput)
    (out : Except String (List String)) : Prop :=
  runEngine relpath input = out

/-! ## Spec-side models

These definitions render the specification's wording (not the code) and
are compared with the embedded code in refinement theorems below. -/

/-- Length of the maximal run of blank lines at the end of a line list
(the spec's "blank run" immediately preceding the next line). -/
def maxBlankRunAtEnd (l : List (List Char)) : Nat :=
  (l.reverse.takeWhile lineIsBlank).length

/-- Proof-side generalisation of `maxBlankRunAtEnd (lines.take j)`
carrying the count `cnt` of blank lines accumulated before the list
started; `preRun 0 lines j` is the blank-run length just before the
0-based position `j`. -/
def preRun (cnt : Nat) (lines : List (List Char)) (j : Nat) : Nat :=
  if (lines.take j).all lineIsBlank then cnt + j
  else maxBlankRunAtEnd (lines.take j)

/-- Rendering of the spec's blank-run rule: S006 fires exactly at the
1-based number of a non-blank line that is immediately preceded by a run
of more than two blank lines.  A run of two never qualifies, and a
trailing run qualifies at no position because the firing position must
hold an existing non-blank line. -/
def S006SpecFires (lines : List (List Char)) (n : Nat) : Prop :=
  ∃ j, j < lines.length ∧ n = j + 1 ∧
    lineIsBlank (lines.getD j []) = false ∧ 2 < maxBlankRunAtEnd (lines.take j)

/-- The text after the first comment marker, to the end of the line
(empty when the line has no marker): the text the spec says S005
inspects. -/
def afterFirstMarker (line : List Char) : List Char :=
  (line.dropWhile (fun c => c != '#')).tail

/-- The text strictly between the first comment marker and the following
marker (or the end of the line): the text the code actually inspects. -/
def betweenFirstAndSecondMarker (line : List Char) : List Char :=
  (afterFirstMarker line).takeWhile (fun c => c != '#')

/-- Rendering of the claimed S011 behaviour: only simple (single-target,
non-destructured) assignments fire, exactly when the assigned name fails
the snake_case classifier, and no other kind of assignment fires. -/
def s011SingleTargetSpec (fp : String) (stmts : List PyStmt) : List Issue :=
  stmts.flatMap (fun s =>
    match s with
    | .assign l [.nameE id] =>
      if is_snake_case id.data then [] else [⟨l, s011Message id, fp⟩]
    | _ => [])

/-- Rendering of the amended S011 behaviour: every plain-name target of
every assignment (also each target of a chained assignment) fires
exactly when its name fails the snake_case classifier; destructured and
other non-name targets never fire. -/
def s011PerTargetSpec (fp : String) (stmts : List PyStmt) : List Issue :=
  stmts.flatMap (fun s =>
    match s with
    | .assign l ts =>
      ts.flatMap (fun t =>
        match t with
        | .nameE id =>
          if is_snake_case id.data then [] else [⟨l, s011Message id, fp⟩]
        | _ => [])
    | _ => [])

/-- An arguments object binding no parameters and no defaults. -/
def noArgs : PyArguments := ⟨[], [], [], [], []⟩

/-- Every default value bound to one of the function's formal arguments
(the spec's reading for S012): the positional defaults together with the
present keyword-only defaults. -/
def boundDefaults (a : PyArguments) : List PyExpr :=
  a.defaults ++ a.kw_defaults.filterMap id

/-- The arguments object of `def f(*, a=[])`: one keyword-only
parameter whose default is a list literal, no positional defaults. -/
def kwOnlyArgsEx : PyArguments := ⟨[], [], [⟨"a", 1⟩], [some .listLit], []⟩

/-- The function `def f(*, a=[]): pass` — a list-literal default bound
to a keyword-only formal argument. -/
def kwOnlyListDefaultFun : PyStmt :=
  .functionDef "f" 1 kwOnlyArgsEx [.terminal]

/-- A function whose body holds one chained (two-target) assignment to
two non-snake_case names. -/
def chainedAssignFun : PyStmt :=
  .functionDef "f" 1 noArgs [.assign 2 [.nameE "AA", .nameE "BB"]]

/-- Segments of lowercase-alphanumeric characters joined by single
underscores (the skeleton of the snake_case pattern). -/
def underscoreJoin : List (List Char) → List Char
  | [] => []
  | [s] => s
  | s :: rest => s ++ '_' :: underscoreJoin rest

/-- Declarative reading of the regex `^_?[a-z0-9]+(_[a-z0-9]+)*_?$`: an
optional leading underscore, one or more nonempty `[a-z0-9]` segments
separated by single underscores, and an optional trailing underscore. -/
def SnakePatternMatch (s : List Char) : Prop :=
  ∃ lead segs trail,
    (lead = [] ∨ lead = ['_']) ∧ (trail = [] ∨ trail = ['_']) ∧ segs ≠ [] ∧
    (∀ seg ∈ segs, seg ≠ [] ∧ ∀ c ∈ seg, isLowerDigit c = true) ∧
    s = lead ++ underscoreJoin segs ++ trail

/-- A function nesting `k` levels of snake_case-named functions around a
single assignment to `name` at line `lineno`; `nestAssign name lineno 0`
is the bare assignment. -/
def nestAssign (name : String) (lineno : Nat) : Nat → PyStmt
  | 0 => .assign lineno [.nameE name]
  | k + 1 => .functionDef "f" 1 noArgs [nestAssign name lineno k]

/-! # Theorems -/

/-! ## Order lemmas for the report sort -/

theorem string_eq_of_data : ∀ {s t : String}, s.data = t.data → s = t
  | ⟨_⟩, ⟨_⟩, rfl => rfl

theorem strLtb_irrefl (l : List Char) : strLtb l l = false := by
  induction l with
  | nil => rfl
  | cons a t ih => simp [strLtb, ih]

theorem strLtb_cons_iff {x y : Char} {xs ys : List Char} :
    strLtb (x :: xs) (y :: ys) = true ↔ x < y ∨ (x = y ∧ strLtb xs ys = true) := by
  by_cases h1 : x < y
  · simp [strLtb, h1]
  · by_cases h2 : y < x
    · have hne : ¬ x = y := fun he => absurd (he ▸ h2) (lt_irrefl x)
      simp [strLtb, h1, h2, hne]
    · have hxy : x = y := le_antisymm (not_lt.mp h2) (not_lt.mp h1)
      simp [strLtb, h1, h2, hxy]

theorem strLtb_trans {a b c : List Char} (h1 : strLtb a b = true)
    (h2 : strLtb b c = true) : strLtb a c = true := by
  induction a generalizing b c with
  | nil =>
    cases b with
    | nil => simp [strLtb] at h1
    | cons y ys =>
      cases c with
      | nil => simp [strLtb] at h2
      | cons z zs => rfl
  | cons x xs ih =>
    cases b with
    | nil => simp [strLtb] at h1
    | cons y ys =>
      cases c with
      | nil => simp [strLtb] at h2
      | cons z zs =>
        rcases strLtb_cons_iff.mp h1 with hxy | ⟨hxy, h1'⟩ <;>
          rcases strLtb_cons_iff.mp h2 with hyz | ⟨hyz, h2'⟩
        · exact strLtb_cons_iff.mpr (Or.inl (lt_trans hxy hyz))
        · exact strLtb_cons_iff.mpr (Or.inl (hyz ▸ hxy))
        · exact strLtb_cons_iff.mpr (Or.inl (hxy ▸ hyz))
        · exact strLtb_cons_iff.mpr (Or.inr ⟨hxy.trans hyz, ih h1' h2'⟩)

theorem strLtb_trichot : ∀ a b : List Char,
    strLtb a b = true ∨ a = b ∨ strLtb b a = true
  | [], [] => Or.inr (Or.inl rfl)
  | [], _ :: _ => Or.inl rfl
  | _ :: _, [] => Or.inr (Or.inr rfl)
  | x :: xs, y :: ys => by
    rcases lt_trichotomy x y with h | h | h
    · exact Or.inl (strLtb_cons_iff.mpr (Or.inl h))
    · subst h
      rcases strLtb_trichot xs ys with h2 | h2 | h2
      · exact Or.inl (strLtb_cons_iff.mpr (Or.inr ⟨rfl, h2⟩))
      · exact Or.inr (Or.inl (by rw [h2]))
      · exact Or.inr (Or.inr (strLtb_cons_iff.mpr (Or.inr ⟨rfl, h2⟩)))
    · exact Or.inr (Or.inr (strLtb_cons_iff.mpr (Or.inl h)))

theorem issueLtb_iff {a b : Issue} :
    issueLtb a b = true ↔
      strLtb a.source.data b.source.data = true ∨
        (a.source = b.source ∧
          (a.line < b.line ∨
            (a.line = b.line ∧ strLtb a.message.data b.message.data = true))) := by
  simp [issueLtb, Bool.or_eq_true, Bool.and_eq_true, beq_iff_eq, decide_eq_true_eq]

theorem issueLtb_irrefl (a : Issue) : issueLtb a a = false := by
  simp [issueLtb, strLtb_irrefl]

theorem issueLtb_trans {a b c : Issue} (h1 : issueLtb a b = true)
    (h2 : issueLtb b c = true) : issueLtb a c = true := by
  rw [issueLtb_iff] at h1 h2 ⊢
  rcases h1 with h1 | ⟨hs1, h1⟩
  · rcases h2 with h2 | ⟨hs2, _⟩
    · exact Or.inl (strLtb_trans h1 h2)
    · exact Or.inl (hs2 ▸ h1)
  · rcases h2 with h2 | ⟨hs2, h2⟩
    · exact Or.inl (hs1 ▸ h2)
    · refine Or.inr ⟨hs1.trans hs2, ?_⟩
      rcases h1 with h1 | ⟨hl1, h1⟩
      · rcases h2 with h2 | ⟨hl2, _⟩
        · exact Or.inl (lt_trans h1 h2)
        · exact Or.inl (hl2 ▸ h1)
      · rcases h2 with h2 | ⟨hl2, h2⟩
        · exact Or.inl (hl1 ▸ h2)
        · exact Or.inr ⟨hl1.trans hl2, strLtb_trans h1 h2⟩

theorem issueLtb_trichot (a b : Issue) :
    issueLtb a b = true ∨ a = b ∨ issueLtb b a = true := by
  rcases strLtb_trichot a.source.data b.source.data with h | h | h
  · exact Or.inl (issueLtb_iff.mpr (Or.inl h))
  · have hs : a.source = b.source := string_eq_of_data h
    rcases Nat.lt_trichotomy a.line b.line with hl | hl | hl
    · exact Or.inl (issueLtb_iff.mpr (Or.inr ⟨hs, Or.inl hl⟩))
    · rcases strLtb_trichot a.message.data b.message.data with hm | hm | hm
      · exact Or.inl (issueLtb_iff.mpr (Or.inr ⟨hs, Or.inr ⟨hl, hm⟩⟩))
      · have hm2 : a.message = b.message := string_eq_of_data hm
        refine Or.inr (Or.inl ?_)
        cases a; cases b
        simp_all
      · exact Or.inr (Or.inr (issueLtb_iff.mpr (Or.inr ⟨hs.symm, Or.inr ⟨hl.symm, hm⟩⟩)))
    · exact Or.inr (Or.inr (issueLtb_iff.mpr (Or.inr ⟨hs.symm, Or.inl hl⟩)))
  · exact Or.inr (Or.inr (issueLtb_iff.mpr (Or.inl h)))

theorem issueLtb_asymm {a b : Issue} (h : issueLtb a b = true) :
    issueLtb b a = false := by
  cases hba : issueLtb b a
  · rfl
  · have h2 := issueLtb_trans h hba
    rw [issueLtb_irrefl] at h2
    exact absurd h2 (by simp)

theorem issueLe_total (a b : Issue) : issueLe a b ∨ issueLe b a := by
  simp only [issueLe, issueLeb, Bool.not_eq_true']
  rcases issueLtb_trichot a b with h | h | h
  · exact Or.inl (issueLtb_asymm h)
  · exact Or.inl (h ▸ issueLtb_irrefl a)
  · exact Or.inr (issueLtb_asymm h)

theorem issueLe_trans {a b c : Issue} (hab : issueLe a b) (hbc : issueLe b c) :
    issueLe a c := by
  simp only [issueLe, issueLeb, Bool.not_eq_true'] at hab hbc ⊢
  cases hca : issueLtb c a
  · rfl
  · exfalso
    rcases issueLtb_trichot b c with h | h | h
    · have h2 := issueLtb_trans h hca
      simp [h2] at hab
    · subst h
      simp [hca] at hab
    · simp [h] at hbc

/-! ## Claim C1 (corrected) -/

/-- C1 counterexample: on a file whose only line carries an S001
violation and whose text fails to parse, `analyze_file` returns the
parse error, not a result containing the collected line-level issue —
refuting the claim that line-level issues are still reported when the
parse fails. -/
theorem claim_c1_counterexample :
    analyze_file "f.py" [List.replicate 80 'x'] (Except.error "invalid syntax") =
      Except.error "invalid syntax" ∧
    lineIssues "f.py" 1 [List.replicate 80 'x'] =
      [⟨1, "S001 Too long", "f.py"⟩] :=
  ⟨rfl, by decide⟩

/-- C1 (amended): when the file's text fails to parse, `analyze_file`
propagates the parse failure itself; the line-level and blank-run issues
are computed but discarded, and no issue at all is reported for the
file. -/
theorem claim_c1 (fp : String) (lines : List (List Char)) (e : String) :
    analyze_file fp lines (Except.error e) = Except.error e := rfl

/-! ## Claim C2 (confirmed) -/

/-- C2: the report builder outputs the issue collection sorted ascending
by the composite key (file identifier, line number, message text) —
`sortIssues` is a permutation of its input sorted by `issueLe` — and on
the concrete scenario of issues on lines [5,3,3] with codes
[S002,S008,S001] in one file the rendered order is line 3/S001, then
line 3/S008, then line 5/S002. -/
theorem claim_c2 :
    (∀ issues : List Issue,
      (sortIssues issues).Sorted issueLe ∧ (sortIssues issues).Perm issues) ∧
    print_issues id
      [⟨5, "S002 Indentation is not a multiple of four", "test.py"⟩,
       ⟨3, "S008 Class name \x27myClass\x27 should use CamelCase", "test.py"⟩,
       ⟨3, "S001 Too long", "test.py"⟩] =
      ["test.py: Line 3: S001 Too long",
       "test.py: Line 3: S008 Class name \x27myClass\x27 should use CamelCase",
       "test.py: Line 5: S002 Indentation is not a multiple of four"] := by
  constructor
  · intro issues
    haveI : IsTotal Issue issueLe := ⟨issueLe_total⟩
    haveI : IsTrans Issue issueLe := ⟨fun _ _ _ hab hbc => issueLe_trans hab hbc⟩
    exact ⟨List.sorted_insertionSort issueLe issues,
           List.perm_insertionSort issueLe issues⟩
  · decide

/-! ## Claim C5 (corrected) -/

/-- C5 counterexample: for `def f(*, a=[]): pass` a directly-constructed
list literal is bound as the default of the formal argument `a`, so the
claim predicts one S012 firing, but the analyzer emits no issue at all —
`check_mutable_default_arguments` reads `node.args.defaults` only and
never `node.args.kw_defaults`. -/
theorem claim_c5_counterexample :
    check_function_defs "f.py" [kwOnlyListDefaultFun] = [] ∧
    (boundDefaults kwOnlyArgsEx).countP isinstanceListDictSet = 1 := by decide

/-- C5 (amended): S012 fires exactly when a default bound to a
positional formal argument (an entry of `node.args.defaults`) is a
directly-constructed list, mapping or set literal — one S012 issue per
such literal, nothing for calls, names or other expressions — while
defaults bound to keyword-only arguments are never inspected: the issues
of a function definition are invariant under any change of its
keyword-only parameters and their defaults. -/
theorem claim_c5 (fp name : String) (lineno : Nat) (args : PyArguments)
    (body : List PyStmt) :
    check_mutable_default_arguments fp lineno args.defaults =
      List.replicate (args.defaults.countP isinstanceListDictSet)
        ⟨lineno, s012Message, fp⟩ ∧
    (∀ (po2 kw2 : List PyArg) (kwd2 : List (Option PyExpr)),
      functionDefIssues fp
        (.functionDef name lineno ⟨po2, args.args, kw2, kwd2, args.defaults⟩ body) =
      functionDefIssues fp (.functionDef name lineno args body)) ∧
    isinstanceListDictSet .listLit = true ∧
    isinstanceListDictSet .dictLit = true ∧
    isinstanceListDictSet .setLit = true ∧
    isinstanceListDictSet .call = false ∧
    (∀ id, isinstanceListDictSet (.nameE id) = false) ∧
    isinstanceListDictSet .otherE = false := by
  refine ⟨?_, fun _ _ _ => rfl, rfl, rfl, rfl, rfl, fun _ => rfl, rfl⟩
  induction args.defaults with
  | nil => rfl
  | cons d rest ih =>
    cases h : isinstanceListDictSet d <;>
      simp [check_mutable_default_arguments, List.countP_cons, h, ih,
        List.replicate_succ]

/-! ## Claim C6 (corrected) -/

/-- Inner-loop characterisation for S011: the issues for the targets of
one assignment are one issue per plain-name target failing snake_case. -/
theorem s011TargetIssues_eq (lineno : Nat) (fp : String) (ts : List PyExpr) :
    s011TargetIssues lineno fp ts =
      ts.flatMap (fun t =>
        match t with
        | .nameE id =>
          if is_snake_case id.data then [] else [⟨lineno, s011Message id, fp⟩]
        | _ => []) := by
  induction ts with
  | nil => rfl
  | cons t rest ih =>
    cases t <;> simp [s011TargetIssues, ih]

/-- Outer-loop characterisation for S011 over a walked statement list. -/
theorem assignIssuesOver_eq (fp : String) (stmts : List PyStmt) :
    assignIssuesOver fp stmts = s011PerTargetSpec fp stmts := by
  induction stmts with
  | nil => rfl
  | cons s rest ih =>
    cases s <;> simp [assignIssuesOver, s011PerTargetSpec, ih,
      s011TargetIssues_eq]

/-- C6 counterexample: a chained (two-target) assignment `AA = BB = ...`
inside a function makes S011 fire although it is not a simple
single-target assignment, refuting the claim that S011 fires for no
other kind of assignment than simple ones. -/
theorem claim_c6_counterexample :
    check_function_body_for_variables "f.py" chainedAssignFun ≠
      s011SingleTargetSpec "f.py" (walkStmt chainedAssignFun) := by decide

/-- C6 (amended): S011 fires once per plain-name target of every
assignment found within the function (including every target of a
chained assignment and assignments in nested blocks and nested function
bodies), exactly when that name fails the snake_case classifier;
destructured and other non-name targets, and non-assignment statements,
never fire. -/
theorem claim_c6 (fp : String) (node : PyStmt) :
    check_function_body_for_variables fp node =
      s011PerTargetSpec fp (walkStmt node) :=
  assignIssuesOver_eq fp (walkStmt node)

/-! ## Claim C8 (confirmed) -/

/-- C8: the engine is deterministic — two runs on the same input (same
file contents under the same paths, same path-relativisation) produce
identical reports. -/
theorem claim_c8 (relpath : String → String) (input : List FileInput)
    (out1 out2 : Except String (List String))
    (h1 : EngineRun relpath input out1) (h2 : EngineRun relpath input out2) :
    out1 = out2 :=
  h1.symm.trans h2

/-- Witness for C8 at a concrete input. -/
theorem claim_c8_witness : (Except.ok [] : Except String (List String)) = Except.ok [] :=
  claim_c8 id [] (Except.ok []) (Except.ok []) rfl rfl

/-! ## Claim C9 (confirmed) -/

/-- C9: rule S008 fires only when the keyword `class` starts at column
0: on any line beginning with a whitespace character the S008 check
produces no issue, regardless of the class name on the line. -/
theorem claim_c9 (c : Char) (rest : List Char) (fp : String) (n : Nat)
    (h : pyIsSpace c = true) : s008LineIssues fp n (c :: rest) = [] := by
  have hc : ¬ ('c' = c) := by
    intro he
    rw [← he] at h
    exact absurd h (by decide)
  have hpre : (['c', 'l', 'a', 's', 's'].isPrefixOf (c :: rest)) = false := by
    simp [List.isPrefixOf, beq_iff_eq]
    intro h1
    exact absurd h1 hc
  simp [s008LineIssues, matchClassDeclName, hpre]

/-- Witness for C9 at a concrete indented class declaration. -/
theorem claim_c9_witness :
    pyIsSpace ' ' = true ∧
    s008LineIssues "f.py" 3 (' ' :: "class badName:".toList) = [] :=
  ⟨by decide, claim_c9 ' ' ("class badName:".toList) "f.py" 3 (by decide)⟩

/-! ## Claim C10 (confirmed) -/

/-- The S011 body-check of any function of the nest sees exactly the one
assignment, producing exactly one issue when the name is not
snake_case. -/
theorem nestAssign_bodyIssues (fp name : String) (lineno : Nat)
    (h : is_snake_case name.data = false) :
    ∀ k, assignIssuesOver fp (walkStmt (nestAssign name lineno k)) =
      [⟨lineno, s011Message name, fp⟩]
  | 0 => by simp [nestAssign, walkStmt, assignIssuesOver, s011TargetIssues, h]
  | k + 1 => by
    simp [nestAssign, walkStmt, walkStmts, assignIssuesOver,
      nestAssign_bodyIssues fp name lineno h k]

/-- Unfolding of `check_function_defs` on a one-element module holding a
function definition: the issues of that function, then the issues of the
walked body. -/
theorem check_function_defs_singleton_fdef (fp n : String) (l : Nat)
    (a : PyArguments) (body : List PyStmt) :
    check_function_defs fp [.functionDef n l a body] =
      functionDefIssues fp (.functionDef n l a body) ++
        checkDefsOver fp (walkStmts body) := by
  simp [check_function_defs, walkStmts, walkStmt, checkDefsOver]

/-- C10: an assignment with a non-snake_case target nested inside `k`
enclosing function declarations is reported `k` times — once per
enclosing function whose walk reaches it — not exactly once. -/
theorem claim_c10 (k : Nat) (name : String) (lineno : Nat) (fp : String)
    (h : is_snake_case name.data = false) :
    (check_function_defs fp [nestAssign name lineno k]).count
      ⟨lineno, s011Message name, fp⟩ = k := by
  induction k with
  | zero =>
    simp [check_function_defs, nestAssign, walkStmts, walkStmt, checkDefsOver,
      functionDefIssues]
  | succ k ih =>
    have hstep : nestAssign name lineno (k + 1) =
        .functionDef "f" 1 noArgs [nestAssign name lineno k] := rfl
    rw [hstep, check_function_defs_singleton_fdef, List.count_append]
    have hfun : functionDefIssues fp
        (.functionDef "f" 1 noArgs [nestAssign name lineno k]) =
        [⟨lineno, s011Message name, fp⟩] := by
      have hbody : assignIssuesOver fp
          (walkStmt (PyStmt.functionDef "f" 1 noArgs [nestAssign name lineno k])) =
          [⟨lineno, s011Message name, fp⟩] :=
        nestAssign_bodyIssues fp name lineno h (k + 1)
      simp [functionDefIssues, check_function_args,
        check_mutable_default_arguments, check_function_body_for_variables,
        hbody, show isDunderName "f" = false from by decide,
        show is_snake_case ("f" : String).data = true from by decide]
    have hrest : checkDefsOver fp (walkStmts [nestAssign name lineno k]) =
        check_function_defs fp [nestAssign name lineno k] := rfl
    rw [hfun, hrest, ih]
    simp [List.count_cons]
    omega

/-- Witness for C10: at nesting depth 2 the violation is reported twice. -/
theorem claim_c10_witness :
    is_snake_case ("X" : String).data = false ∧
    (check_function_defs "f.py" [nestAssign "X" 5 2]).count
      ⟨5, s011Message "X", "f.py"⟩ = 2 :=
  ⟨by decide, claim_c10 2 "X" 5 "f.py" (by decide)⟩

/-! ## Claim C3 (confirmed): blank-run rule -/

theorem takeWhile_of_all {α : Type} (p : α → Bool) :
    ∀ l : List α, l.all p = true → l.takeWhile p = l
  | [], _ => rfl
  | a :: t, h => by
    rw [List.all_cons, Bool.and_eq_true] at h
    simp [List.takeWhile_cons, h.1, takeWhile_of_all p t h.2]

theorem takeWhile_append_all {α : Type} (p : α → Bool) :
    ∀ l₁ l₂ : List α, l₁.all p = true →
      (l₁ ++ l₂).takeWhile p = l₁ ++ l₂.takeWhile p
  | [], _, _ => rfl
  | a :: t, l₂, h => by
    rw [List.all_cons, Bool.and_eq_true] at h
    simp [List.takeWhile_cons, h.1, takeWhile_append_all p t l₂ h.2]

theorem takeWhile_append_stop {α : Type} (p : α → Bool) :
    ∀ l₁ l₂ : List α, l₁.all p = false →
      (l₁ ++ l₂).takeWhile p = l₁.takeWhile p
  | [], _, h => by simp at h
  | a :: t, l₂, h => by
    rw [List.all_cons] at h
    cases hpa : p a with
    | false => simp [List.takeWhile_cons, hpa]
    | true =>
      rw [hpa, Bool.true_and] at h
      simp [List.takeWhile_cons, hpa, takeWhile_append_stop p t l₂ h]

/-- A list of only blank lines has a maximal trailing blank run of its
full length. -/
theorem maxBlankRunAtEnd_all (l : List (List Char))
    (h : l.all lineIsBlank = true) : maxBlankRunAtEnd l = l.length := by
  unfold maxBlankRunAtEnd
  rw [takeWhile_of_all lineIsBlank l.reverse (by rwa [List.all_reverse]),
    List.length_reverse]

/-- Prepending a line to a not-all-blank list does not change the
trailing blank run. -/
theorem maxBlankRunAtEnd_cons_not (x : List Char) (l : List (List Char))
    (h : l.all lineIsBlank = false) :
    maxBlankRunAtEnd (x :: l) = maxBlankRunAtEnd l := by
  unfold maxBlankRunAtEnd
  rw [List.reverse_cons,
    takeWhile_append_stop lineIsBlank l.reverse [x] (by rwa [List.all_reverse])]

theorem preRun_zero_pos (cnt : Nat) (lines : List (List Char)) :
    preRun cnt lines 0 = cnt := by
  simp [preRun]

theorem preRun_succ_blank (cnt j : Nat) (line : List Char)
    (rest : List (List Char)) (hb : lineIsBlank line = true) :
    preRun cnt (line :: rest) (j + 1) = preRun (cnt + 1) rest j := by
  unfold preRun
  rw [List.take_succ_cons, List.all_cons, hb, Bool.true_and]
  cases hall : (rest.take j).all lineIsBlank with
  | true =>
    simp only [if_true]
    omega
  | false =>
    simp only [if_false, Bool.false_eq_true]
    exact maxBlankRunAtEnd_cons_not line (rest.take j) hall

/-- Prepending a non-blank line to an all-blank list leaves a trailing
blank run of the list's full length. -/
theorem maxBlankRunAtEnd_cons_all (x : List Char) (l : List (List Char))
    (hx : lineIsBlank x = false) (h : l.all lineIsBlank = true) :
    maxBlankRunAtEnd (x :: l) = l.length := by
  unfold maxBlankRunAtEnd
  rw [List.reverse_cons,
    takeWhile_append_all lineIsBlank l.reverse [x] (by rwa [List.all_reverse])]
  simp [List.takeWhile_cons, hx]

theorem preRun_succ_nonblank (cnt j : Nat) (line : List Char)
    (rest : List (List Char)) (hb : lineIsBlank line = false)
    (hj : j ≤ rest.length) :
    preRun cnt (line :: rest) (j + 1) = preRun 0 rest j := by
  unfold preRun
  rw [List.take_succ_cons, List.all_cons, hb, Bool.false_and]
  cases hall : (rest.take j).all lineIsBlank with
  | true =>
    simp only [Bool.false_eq_true, if_false, if_true]
    rw [maxBlankRunAtEnd_cons_all line (rest.take j) hb hall]
    simp [List.length_take]
    omega
  | false =>
    simp only [Bool.false_eq_true, if_false]
    exact maxBlankRunAtEnd_cons_not line (rest.take j) hall

theorem preRun_eq_maxBlank (lines : List (List Char)) (j : Nat)
    (hj : j ≤ lines.length) :
    preRun 0 lines j = maxBlankRunAtEnd (lines.take j) := by
  unfold preRun
  cases hall : (lines.take j).all lineIsBlank with
  | true =>
    rw [if_pos rfl, maxBlankRunAtEnd_all (lines.take j) hall]
    simp [List.length_take]
    omega
  | false => simp

/-- Splitting an existential over positions of a cons list. -/
theorem exists_pos_cons {α : Type} (x : α) (l : List α) (P : Nat → Prop) :
    (∃ j, j < (x :: l).length ∧ P j) ↔
      P 0 ∨ ∃ j, j < l.length ∧ P (j + 1) := by
  constructor
  · rintro ⟨j, hj, hP⟩
    cases j with
    | zero => exact Or.inl hP
    | succ j =>
      refine Or.inr ⟨j, ?_, hP⟩
      simpa using hj
  · rintro (hP | ⟨j, hj, hP⟩)
    · exact ⟨0, by simp, hP⟩
    · exact ⟨j + 1, by simpa using hj, hP⟩

/-- Membership characterisation of the blank-run loop: a position is
emitted exactly when it is one past a non-blank line whose immediately
preceding blank run (counting the carried-in count) exceeds two. -/
theorem blankRunGo_mem :
    ∀ (lines : List (List Char)) (i cnt : Nat), cnt ≤ i → ∀ n,
      (n ∈ blankRunGo lines i cnt ↔
        ∃ j, j < lines.length ∧ n = i + j + 1 ∧
          lineIsBlank (lines.getD j []) = false ∧ 2 < preRun cnt lines j)
  | [], i, cnt, _, n => by simp [blankRunGo]
  | line :: rest, i, cnt, hc, n => by
    rw [exists_pos_cons]
    cases hb : lineIsBlank line with
    | true =>
      rw [show blankRunGo (line :: rest) i cnt = blankRunGo rest (i + 1) (cnt + 1)
            from by simp [blankRunGo, hb]]
      rw [blankRunGo_mem rest (i + 1) (cnt + 1) (by omega) n]
      constructor
      · rintro ⟨j, hj, hn, hnb, hpre⟩
        refine Or.inr ⟨j, hj, ?_, by simpa using hnb, ?_⟩
        · omega
        · rwa [preRun_succ_blank cnt j line rest hb]
      · rintro (⟨_, hnb, _⟩ | ⟨j, hj, hn, hnb, hpre⟩)
        · simp [hb] at hnb
        · refine ⟨j, hj, by omega, by simpa using hnb, ?_⟩
          rwa [preRun_succ_blank cnt j line rest hb] at hpre
    | false =>
      rw [show blankRunGo (line :: rest) i cnt =
            (if cnt > 2 then [i - cnt + cnt + 1] else []) ++
              blankRunGo rest (i + 1) 0
            from by simp [blankRunGo, hb]]
      rw [List.mem_append, blankRunGo_mem rest (i + 1) 0 (by omega) n]
      have hval : i - cnt + cnt + 1 = i + 1 := by omega
      constructor
      · rintro (hfirst | ⟨j, hj, hn, hnb, hpre⟩)
        · rw [List.mem_ite_nil_right] at hfirst
          obtain ⟨hcnt, hn⟩ := hfirst
          rw [List.mem_singleton] at hn
          refine Or.inl ⟨?_, by simpa using hb, ?_⟩
          · omega
          · rwa [preRun_zero_pos]
        · refine Or.inr ⟨j, hj, by omega, by simpa using hnb, ?_⟩
          rwa [preRun_succ_nonblank cnt j line rest hb (by omega)]
      · rintro (⟨hn, hnb, hpre⟩ | ⟨j, hj, hn, hnb, hpre⟩)
        · rw [preRun_zero_pos] at hpre
          refine Or.inl ?_
          rw [List.mem_ite_nil_right, List.mem_singleton]
          exact ⟨hpre, by omega⟩
        · refine Or.inr ⟨j, hj, by omega, by simpa using hnb, ?_⟩
          rwa [preRun_succ_nonblank cnt j line rest hb (by omega)] at hpre

/-- Every position the blank-run loop emits lies past the current
index. -/
theorem blankRunGo_gt :
    ∀ (lines : List (List Char)) (i cnt : Nat) (n : Nat),
      n ∈ blankRunGo lines i cnt → i < n
  | [], _, _, _, h => by simp [blankRunGo] at h
  | line :: rest, i, cnt, n, h => by
    cases hb : lineIsBlank line with
    | true =>
      rw [show blankRunGo (line :: rest) i cnt = blankRunGo rest (i + 1) (cnt + 1)
            from by simp [blankRunGo, hb]] at h
      have := blankRunGo_gt rest (i + 1) (cnt + 1) n h
      omega
    | false =>
      rw [show blankRunGo (line :: rest) i cnt =
            (if cnt > 2 then [i - cnt + cnt + 1] else []) ++
              blankRunGo rest (i + 1) 0
            from by simp [blankRunGo, hb], List.mem_append] at h
      rcases h with h | h
      · rw [List.mem_ite_nil_right, List.mem_singleton] at h
        omega
      · have := blankRunGo_gt rest (i + 1) 0 n h
        omega

/-- The blank-run loop emits no duplicate positions. -/
theorem blankRunGo_nodup :
    ∀ (lines : List (List Char)) (i cnt : Nat), cnt ≤ i →
      (blankRunGo lines i cnt).Nodup
  | [], _, _, _ => by simp [blankRunGo]
  | line :: rest, i, cnt, hc => by
    cases hb : lineIsBlank line with
    | true =>
      rw [show blankRunGo (line :: rest) i cnt = blankRunGo rest (i + 1) (cnt + 1)
            from by simp [blankRunGo, hb]]
      exact blankRunGo_nodup rest (i + 1) (cnt + 1) (by omega)
    | false =>
      rw [show blankRunGo (line :: rest) i cnt =
            (if cnt > 2 then [i - cnt + cnt + 1] else []) ++
              blankRunGo rest (i + 1) 0
            from by simp [blankRunGo, hb]]
      have hrest := blankRunGo_nodup rest (i + 1) 0 (by omega)
      by_cases hcnt : cnt > 2
      · rw [if_pos hcnt, List.singleton_append, List.nodup_cons]
        refine ⟨fun hmem => ?_, hrest⟩
        have := blankRunGo_gt rest (i + 1) 0 _ hmem
        omega
      · rw [if_neg hcnt, List.nil_append]
        exact hrest

/-- C3: the blank-run rule S006 emits exactly one issue position per
maximal run of more than two consecutive blank lines, at the 1-based
number of the first non-blank line following the run; a run of exactly
two blank lines never fires, and a trailing run at end of file never
fires (the characterisation requires an existing non-blank line at the
firing position, and the emitted positions are duplicate-free). -/
theorem claim_c3 (lines : List (List Char)) :
    (∀ n, n ∈ has_more_than_two_blank_lines lines ↔ S006SpecFires lines n) ∧
    (has_more_than_two_blank_lines lines).Nodup := by
  refine ⟨fun n => ?_, blankRunGo_nodup lines 0 0 (Nat.le_refl 0)⟩
  rw [has_more_than_two_blank_lines,
    blankRunGo_mem lines 0 0 (Nat.le_refl 0) n]
  unfold S006SpecFires
  constructor
  · rintro ⟨j, hj, hn, hnb, hpre⟩
    refine ⟨j, hj, by omega, hnb, ?_⟩
    rwa [preRun_eq_maxBlank lines j (by omega)] at hpre
  · rintro ⟨j, hj, hn, hnb, hpre⟩
    refine ⟨j, hj, by omega, hnb, ?_⟩
    rwa [preRun_eq_maxBlank lines j (by omega)]

/-! ## Claim C4 (corrected): the S005 comment text -/

theorem pySplitChar_ne_nil (sep : Char) : ∀ l, pySplitChar sep l ≠ []
  | [] => by simp [pySplitChar]
  | c :: rest => by
    by_cases h : (c == sep) = true
    · simp [pySplitChar, h]
    · rw [show pySplitChar sep (c :: rest) =
          (match pySplitChar sep rest with
           | [] => [[c]]
           | p :: ps => (c :: p) :: ps) from by
        simp [pySplitChar, h]]
      cases pySplitChar sep rest <;> simp

/-- The first split field is the text before the first separator. -/
theorem pySplitChar_head (sep : Char) : ∀ l : List Char,
    (pySplitChar sep l).head? = some (l.takeWhile (fun c => c != sep))
  | [] => rfl
  | c :: rest => by
    by_cases h : (c == sep) = true
    · have hc : c = sep := by simpa using h
      simp [pySplitChar, h, List.takeWhile_cons, bne, hc]
    · obtain ⟨p, ps, hps⟩ : ∃ p ps, pySplitChar sep rest = p :: ps := by
        cases hh : pySplitChar sep rest with
        | nil => exact absurd hh (pySplitChar_ne_nil sep rest)
        | cons p ps => exact ⟨p, ps, rfl⟩
      have ih := pySplitChar_head sep rest
      rw [hps] at ih
      simp only [List.head?_cons, Option.some.injEq] at ih
      simp [pySplitChar, h, hps, List.takeWhile_cons, bne, ih]

/-- Splitting a list without the separator yields that list alone. -/
theorem pySplitChar_not_mem (sep : Char) : ∀ l : List Char,
    sep ∉ l → pySplitChar sep l = [l]
  | [] => fun _ => rfl
  | c :: rest => fun hmem => by
    have hc : (c == sep) = false := by
      simp only [beq_eq_false_iff_ne]
      intro he
      exact hmem (he ▸ List.mem_cons_self c rest)
    have hrest : sep ∉ rest := fun hr => hmem (List.mem_cons_of_mem c hr)
    simp [pySplitChar, hc, pySplitChar_not_mem sep rest hrest]

/-- The second split field is the text strictly between the first
separator and the next one (or the end). -/
theorem pySplitChar_get1 (sep : Char) : ∀ l : List Char, sep ∈ l →
    (pySplitChar sep l).get? 1 =
      some (((l.dropWhile (fun c => c != sep)).tail).takeWhile (fun c => c != sep))
  | [] => fun h => absurd h (List.not_mem_nil sep)
  | c :: rest => fun hmem => by
    by_cases h : (c == sep) = true
    · have hc : c = sep := by simpa using h
      have hdrop : (c :: rest).dropWhile (fun x => x != sep) = c :: rest := by
        simp [List.dropWhile_cons, bne, hc]
      rw [hdrop]
      simp only [List.tail_cons]
      rw [show pySplitChar sep (c :: rest) = [] :: pySplitChar sep rest from by
        simp [pySplitChar, h]]
      show (pySplitChar sep rest).get? 0 = _
      rw [List.get?_zero]
      exact pySplitChar_head sep rest
    · have hc : ¬ (c = sep) := by simpa using h
      have hrest : sep ∈ rest := by
        rcases List.mem_cons.mp hmem with he | hr
        · exact absurd he.symm hc
        · exact hr
      obtain ⟨p, ps, hps⟩ : ∃ p ps, pySplitChar sep rest = p :: ps := by
        cases hh : pySplitChar sep rest with
        | nil => exact absurd hh (pySplitChar_ne_nil sep rest)
        | cons p ps => exact ⟨p, ps, rfl⟩
      have ih := pySplitChar_get1 sep rest hrest
      rw [hps] at ih
      have hdrop : (c :: rest).dropWhile (fun x => x != sep) =
          rest.dropWhile (fun x => x != sep) := by
        simp [List.dropWhile_cons, bne, h]
      rw [hdrop]
      rw [show pySplitChar sep (c :: rest) = (c :: p) :: ps from by
        simp [pySplitChar, h, hps]]
      exact ih

/-- C4 counterexample: on the line `#a#todo` the text after the first
marker contains "todo" (case-insensitively), so the claim predicts that
S005 fires, but `has_todo_comment` is false because the code only
inspects the text up to the second marker. -/
theorem claim_c4_counterexample :
    has_todo_comment ("#a#todo".toList) = false ∧
    '#' ∈ ("#a#todo".toList) ∧
    containsSub ['t', 'o', 'd', 'o']
      ((afterFirstMarker ("#a#todo".toList)).map pyToLower) = true := by decide

/-- C4 (amended): rule S005 fires iff the line contains a comment marker
and the text strictly between the first marker and the following marker
(or the end of the line), compared case-insensitively, contains the
substring "todo". -/
theorem claim_c4 (line : List Char) :
    has_todo_comment line = true ↔
      ('#' ∈ line ∧
        containsSub ['t', 'o', 'd', 'o']
          ((betweenFirstAndSecondMarker line).map pyToLower) = true) := by
  by_cases hmem : '#' ∈ line
  · unfold has_todo_comment
    rw [pySplitChar_get1 '#' line hmem]
    unfold betweenFirstAndSecondMarker afterFirstMarker
    exact ⟨fun h => ⟨hmem, h⟩, fun h => h.2⟩
  · unfold has_todo_comment
    rw [pySplitChar_not_mem '#' line hmem]
    simp [hmem]

/-! ## Claim C7 (confirmed): the snake_case classifier -/

theorem snakeGo_lower_run : ∀ (t r : List Char),
    (∀ c ∈ t, isLowerDigit c = true) →
    snakeGo false (t ++ r) = snakeGo false r
  | [], _, _ => rfl
  | c :: t, r, h => by
    have hc : isLowerDigit c = true := h c (List.mem_cons_self c t)
    rw [List.cons_append, show snakeGo false (c :: (t ++ r)) = snakeGo false (t ++ r)
      from by simp [snakeGo, hc]]
    exact snakeGo_lower_run t r (fun x hx => h x (List.mem_cons_of_mem c hx))

theorem snakeGo_seg (seg r : List Char) (au : Bool) (hne : seg ≠ [])
    (h : ∀ c ∈ seg, isLowerDigit c = true) :
    snakeGo au (seg ++ r) = snakeGo false r := by
  cases seg with
  | nil => exact absurd rfl hne
  | cons c t =>
    have hc : isLowerDigit c = true := h c (List.mem_cons_self c t)
    rw [List.cons_append, show snakeGo au (c :: (t ++ r)) = snakeGo false (t ++ r)
      from by simp [snakeGo, hc]]
    exact snakeGo_lower_run t r (fun x hx => h x (List.mem_cons_of_mem c hx))

theorem snakeGo_trail (trail : List Char) (ht : trail = [] ∨ trail = ['_']) :
    snakeGo false trail = true := by
  rcases ht with h | h <;> subst h <;> decide

theorem snakeGo_join : ∀ (segs : List (List Char)) (trail : List Char) (au : Bool),
    segs ≠ [] →
    (∀ seg ∈ segs, seg ≠ [] ∧ ∀ c ∈ seg, isLowerDigit c = true) →
    (trail = [] ∨ trail = ['_']) →
    snakeGo au (underscoreJoin segs ++ trail) = true
  | [], _, _, hne, _, _ => absurd rfl hne
  | [s], trail, au, _, hsegs, ht => by
    have hs := hsegs s (List.mem_cons_self s [])
    rw [show underscoreJoin [s] = s from rfl,
      snakeGo_seg s trail au hs.1 hs.2]
    exact snakeGo_trail trail ht
  | s :: s2 :: rest, trail, au, _, hsegs, ht => by
    have hs := hsegs s (List.mem_cons_self s (s2 :: rest))
    rw [show underscoreJoin (s :: s2 :: rest) = s ++ '_' :: underscoreJoin (s2 :: rest)
      from rfl]
    rw [List.append_assoc, List.cons_append,
      snakeGo_seg s ('_' :: (underscoreJoin (s2 :: rest) ++ trail)) au hs.1 hs.2]
    rw [show snakeGo false ('_' :: (underscoreJoin (s2 :: rest) ++ trail)) =
        snakeGo true (underscoreJoin (s2 :: rest) ++ trail) from by
      simp [snakeGo, show isLowerDigit '_' = false from by decide]]
    exact snakeGo_join (s2 :: rest) trail true (by simp)
      (fun x hx => hsegs x (List.mem_cons_of_mem s hx)) ht

theorem snakeStartSeg_eq_go (c : Char) (rest : List Char)
    (hc : isLowerDigit c = true) :
    snakeStartSeg (c :: rest) = snakeGo false (c :: rest) := by
  simp [snakeStartSeg, snakeGo, hc]

theorem snakeGo_chars : ∀ (l : List Char) (au : Bool), snakeGo au l = true →
    ∀ c ∈ l, isLowerDigit c = true ∨ c = '_'
  | [], _, _, c, hc => absurd hc (List.not_mem_nil c)
  | x :: rest, au, h, c, hc => by
    by_cases hx : isLowerDigit x = true
    · rw [show snakeGo au (x :: rest) = snakeGo false rest from by simp [snakeGo, hx]] at h
      rcases List.mem_cons.mp hc with he | hm
      · exact Or.inl (he ▸ hx)
      · exact snakeGo_chars rest false h c hm
    · by_cases hu : (x == '_') = true
      · have hx2 : x = '_' := by simpa using hu
        rw [show snakeGo au (x :: rest) = (!au && snakeGo true rest)
          from by simp [snakeGo, hx, hu]] at h
        rw [Bool.and_eq_true] at h
        rcases List.mem_cons.mp hc with he | hm
        · exact Or.inr (he.trans hx2)
        · exact snakeGo_chars rest true h.2 c hm
      · rw [show snakeGo au (x :: rest) = false from by simp [snakeGo, hx, hu]] at h
        exact absurd h (by simp)

theorem snakeFullMatch_chars (l : List Char) (h : snakeFullMatch l = true) :
    ∀ c ∈ l, isLowerDigit c = true ∨ c = '_' := by
  cases l with
  | nil => exact fun c hc => absurd hc (List.not_mem_nil c)
  | cons x rest =>
    intro c hc
    by_cases hx : (x == '_') = true
    · have hx2 : x = '_' := by simpa using hx
      rw [show snakeFullMatch (x :: rest) = snakeStartSeg rest
        from by simp [snakeFullMatch, hx]] at h
      rcases List.mem_cons.mp hc with he | hm
      · exact Or.inr (he.trans hx2)
      · cases rest with
        | nil => exact absurd hm (List.not_mem_nil c)
        | cons y t =>
          rw [snakeStartSeg, Bool.and_eq_true] at h
          rcases List.mem_cons.mp hm with he2 | hm2
          · exact Or.inl (he2 ▸ h.1)
          · exact snakeGo_chars t false h.2 c hm2
    · rw [show snakeFullMatch (x :: rest) = snakeStartSeg (x :: rest)
        from by simp [snakeFullMatch, hx]] at h
      rw [snakeStartSeg, Bool.and_eq_true] at h
      rcases List.mem_cons.mp hc with he | hm
      · exact Or.inl (he ▸ h.1)
      · exact snakeGo_chars rest false h.2 c hm

theorem snakeGo_double_und : ∀ (p : List Char) (au : Bool) (q : List Char),
    snakeGo au (p ++ '_' :: '_' :: q) = false
  | [], au, q => by
    simp [snakeGo, show isLowerDigit '_' = false from by decide]
  | x :: p, au, q => by
    by_cases hx : isLowerDigit x = true
    · rw [List.cons_append, show snakeGo au (x :: (p ++ '_' :: '_' :: q)) =
        snakeGo false (p ++ '_' :: '_' :: q) from by simp [snakeGo, hx]]
      exact snakeGo_double_und p false q
    · by_cases hu : (x == '_') = true
      · rw [List.cons_append, show snakeGo au (x :: (p ++ '_' :: '_' :: q)) =
          (!au && snakeGo true (p ++ '_' :: '_' :: q)) from by simp [snakeGo, hx, hu]]
        rw [snakeGo_double_und p true q, Bool.and_false]
      · rw [List.cons_append, show snakeGo au (x :: (p ++ '_' :: '_' :: q)) = false
          from by simp [snakeGo, hx, hu]]

theorem snakeStartSeg_double_und : ∀ (p q : List Char),
    snakeStartSeg (p ++ '_' :: '_' :: q) = false
  | [], q => by simp [snakeStartSeg, isLowerDigit]
  | x :: p, q => by
    rw [List.cons_append, snakeStartSeg, snakeGo_double_und p false q, Bool.and_false]

theorem snakeFullMatch_double_und (p q : List Char) :
    snakeFullMatch (p ++ '_' :: '_' :: q) = false := by
  cases p with
  | nil =>
    simp only [List.nil_append]
    rw [show snakeFullMatch ('_' :: '_' :: q) = snakeStartSeg ('_' :: q)
      from by simp [snakeFullMatch]]
    simp [snakeStartSeg, isLowerDigit]
  | cons x p =>
    by_cases hx : (x == '_') = true
    · rw [List.cons_append, show snakeFullMatch (x :: (p ++ '_' :: '_' :: q)) =
        snakeStartSeg (p ++ '_' :: '_' :: q) from by simp [snakeFullMatch, hx]]
      exact snakeStartSeg_double_und p q
    · rw [List.cons_append, show snakeFullMatch (x :: (p ++ '_' :: '_' :: q)) =
        snakeStartSeg (x :: (p ++ '_' :: '_' :: q)) from by simp [snakeFullMatch, hx]]
      rw [show (x :: (p ++ '_' :: '_' :: q) : List Char) =
        ((x :: p) ++ '_' :: '_' :: q) from by simp]
      exact snakeStartSeg_double_und (x :: p) q

theorem is_snake_case_chars (s : List Char) (h : is_snake_case s = true) :
    ∀ c ∈ s, isLowerDigit c = true ∨ c = '_' ∨ c = '\n' := by
  rw [is_snake_case, Bool.or_eq_true] at h
  rcases h with h | h
  · intro c hc
    rcases snakeFullMatch_chars s h c hc with h2 | h2
    · exact Or.inl h2
    · exact Or.inr (Or.inl h2)
  · rw [Bool.and_eq_true] at h
    obtain ⟨hlast, hfull⟩ := h
    have hlast2 : s.getLast? = some '\n' := by simpa using hlast
    have hne : s ≠ [] := by
      intro he
      subst he
      simp at hlast2
    intro c hc
    rw [← List.dropLast_append_getLast hne, List.mem_append] at hc
    rcases hc with hc | hc
    · rcases snakeFullMatch_chars s.dropLast hfull c hc with h2 | h2
      · exact Or.inl h2
      · exact Or.inr (Or.inl h2)
    · rw [List.mem_singleton] at hc
      have : s.getLast hne = '\n' := by
        rw [List.getLast?_eq_getLast s hne] at hlast2
        simpa using hlast2
      exact Or.inr (Or.inr (hc.trans this))

/-- C7: every string matching the declarative snake-case pattern is
accepted by `is_snake_case`, and every string containing an uppercase
letter or a double underscore is rejected. -/
theorem claim_c7 :
    (∀ s, SnakePatternMatch s → is_snake_case s = true) ∧
    (∀ s, ((∃ c ∈ s, isUpperAlpha c = true) ∨ ['_', '_'] <:+: s) →
      is_snake_case s = false) := by
  constructor
  · rintro s ⟨lead, segs, trail, hlead, htrail, hne, hsegs, hs⟩
    subst hs
    obtain ⟨c, rest2, heq, hc⟩ :
        ∃ c rest2, underscoreJoin segs ++ trail = c :: rest2 ∧
          isLowerDigit c = true := by
      cases segs with
      | nil => exact absurd rfl hne
      | cons s1 rest =>
        obtain ⟨hs1ne, hs1chars⟩ := hsegs s1 (List.mem_cons_self s1 rest)
        cases s1 with
        | nil => exact absurd rfl hs1ne
        | cons c t =>
          have hc : isLowerDigit c = true := hs1chars c (List.mem_cons_self c t)
          cases rest with
          | nil => exact ⟨c, t ++ trail, by simp [underscoreJoin], hc⟩
          | cons s2 r2 =>
            exact ⟨c, (t ++ '_' :: underscoreJoin (s2 :: r2)) ++ trail,
              by simp [underscoreJoin], hc⟩
    have hgo : snakeGo false (underscoreJoin segs ++ trail) = true :=
      snakeGo_join segs trail false hne hsegs htrail
    have hstart : snakeStartSeg (underscoreJoin segs ++ trail) = true := by
      rw [heq] at hgo ⊢
      rw [snakeStartSeg_eq_go c rest2 hc]
      exact hgo
    have hcne : (c == '_') = false := by
      rw [beq_eq_false_iff_ne]
      intro he
      subst he
      exact absurd hc (by decide)
    rcases hlead with h0 | h1
    · subst h0
      rw [List.nil_append, is_snake_case, heq,
        show snakeFullMatch (c :: rest2) = snakeStartSeg (c :: rest2)
          from by simp [snakeFullMatch, hcne]]
      rw [heq] at hstart
      simp [hstart]
    · subst h1
      rw [show (['_'] ++ underscoreJoin segs ++ trail : List Char) =
        '_' :: (underscoreJoin segs ++ trail) from by simp]
      rw [is_snake_case,
        show snakeFullMatch ('_' :: (underscoreJoin segs ++ trail)) =
          snakeStartSeg (underscoreJoin segs ++ trail)
          from by simp [snakeFullMatch]]
      simp [hstart]
  · rintro s (⟨c, hc, hupper⟩ | ⟨u, v, huv⟩)
    · cases h : is_snake_case s with
      | false => rfl
      | true =>
        exfalso
        rcases is_snake_case_chars s h c hc with h2 | h2 | h2
        · have : isLowerDigit c = false := by
            revert hupper
            simp [isUpperAlpha, isLowerDigit, Bool.and_eq_true, Bool.or_eq_true,
              decide_eq_true_eq]
            omega
          rw [h2] at this
          exact absurd this (by simp)
        · subst h2
          exact absurd hupper (by decide)
        · subst h2
          exact absurd hupper (by decide)
    · have hs : s = u ++ '_' :: '_' :: v := by
        rw [← huv]
        simp
      subst hs
      rw [is_snake_case, Bool.or_eq_false_iff]
      refine ⟨snakeFullMatch_double_und u v, ?_⟩
      rcases List.eq_nil_or_concat v with hv | ⟨v2, a, hv⟩
      · subst hv
        have : (u ++ ['_', '_'] : List Char).getLast? = some '_' := by
          rw [show (u ++ ['_', '_'] : List Char) = (u ++ ['_']) ++ ['_'] from by simp,
            List.getLast?_concat]
        rw [show (u ++ '_' :: '_' :: [] : List Char) = u ++ ['_', '_'] from rfl, this]
        simp
      · subst hv
        simp only [List.concat_eq_append]
        have hdrop : (u ++ '_' :: '_' :: (v2 ++ [a])).dropLast =
            u ++ '_' :: '_' :: v2 := by
          rw [show (u ++ '_' :: '_' :: (v2 ++ [a]) : List Char) =
            (u ++ '_' :: '_' :: v2) ++ [a] from by simp, List.dropLast_concat]
        rw [hdrop, snakeFullMatch_double_und u v2, Bool.and_false]

/-- Witness for C7 at concrete strings. -/
theorem claim_c7_witness :
    is_snake_case ("ab_c".toList) = true ∧ is_snake_case ("aB".toList) = false :=
  ⟨claim_c7.1 _ ⟨[], [['a', 'b'], ['c']], [], Or.inl rfl, Or.inl rfl, by simp,
      by decide, by decide⟩,
   claim_c7.2 _ (Or.inl ⟨'B', by decide, by decide⟩)⟩
